import Mathlib

/-!
Verification of `check_vector_safety.py`, a regex-based scanner that flags
C++ `std::vector` access patterns line by line.

The three module-level regular expressions of the source are embedded as
direct character-list matchers.  For each pattern the regex has the shape
`\b(identifier)...` followed by literal characters, `\s*` gaps and a `\d+`
group; all adjacent subpatterns draw from disjoint character classes
(`\w`, `\s`, and the literal punctuation), so a greedy, non-backtracking
scan computes exactly the Python `re` match at each position.
`re.finditer` is embedded as a scan that attempts a match at every
position, emits the match and resumes right after it (every match of the
three patterns ends in `]` or `)`, a non-word character, so the
word-boundary state after a match is `false`), and otherwise advances one
character.  Character classes are modelled on their ASCII fragment, which
is exact for the source-code text the tool targets.  Python set insertion
is modelled as an insertion-ordered duplicate-free list; within one
process CPython's set iteration order is a function of the insertion
sequence, so the analysis stays a pure function of the file's lines.
-/

set_option maxRecDepth 8000

namespace CheckVectorSafety

/-- ASCII model of the regex class `\w` (letters, digits, underscore). -/
def isWordChar (c : Char) : Bool := c.isAlphanum || c == '_'

/-- Model of the regex class `[a-zA-Z_]`. -/
def isIdStart (c : Char) : Bool := c.isAlpha || c == '_'

/-- ASCII model of the regex class `\s`. -/
def isSpaceCh (c : Char) : Bool :=
  c == ' ' || c == '\t' || c == '\n' || c == '\r' || c == '\x0b' || c == '\x0c'

/-- Match a literal character sequence at the front of the input,
returning the remainder on success. -/
def stripLit : List Char → List Char → Option (List Char)
  | [], s => some s
  | _ :: _, [] => none
  | c :: cs, x :: xs => if x == c then stripLit cs xs else none

/-- Attempt of `vector_access_pattern`, the regex
`\b([a-zA-Z_]\w*)\s*\[\s*(\d+)\s*\]` (source line 5), at the current
position.  `prevWord` says whether the character before this position is a
word character (for `\b`).  On success returns ((name, index), rest of the
input after the match). -/
def matchVectorAccess (prevWord : Bool) (s : List Char) :
    Option ((List Char × List Char) × List Char) :=
  match s with
  | [] => none
  | c :: cs =>
    if prevWord || !(isIdStart c) then none
    else
      match (cs.dropWhile isWordChar).dropWhile isSpaceCh with
      | '[' :: r1 =>
        if ((r1.dropWhile isSpaceCh).takeWhile Char.isDigit).isEmpty then none
        else
          match ((r1.dropWhile isSpaceCh).dropWhile Char.isDigit).dropWhile isSpaceCh with
          | ']' :: r2 =>
            some ((c :: cs.takeWhile isWordChar,
                   (r1.dropWhile isSpaceCh).takeWhile Char.isDigit), r2)
          | _ => none
      | _ => none

/-- Attempt of `vector_at_pattern`, the regex
`\b([a-zA-Z_]\w*)\.at\s*\(\s*(\d+)\s*\)` (source line 6), at the current
position.  Note the regex places no `\s*` between the identifier and `.`
nor between `.` and `at`. -/
def matchVectorAt (prevWord : Bool) (s : List Char) :
    Option ((List Char × List Char) × List Char) :=
  match s with
  | [] => none
  | c :: cs =>
    if prevWord || !(isIdStart c) then none
    else
      match cs.dropWhile isWordChar with
      | '.' :: 'a' :: 't' :: r0 =>
        match r0.dropWhile isSpaceCh with
        | '(' :: r1 =>
          if ((r1.dropWhile isSpaceCh).takeWhile Char.isDigit).isEmpty then none
          else
            match ((r1.dropWhile isSpaceCh).dropWhile Char.isDigit).dropWhile isSpaceCh with
            | ')' :: r2 =>
              some ((c :: cs.takeWhile isWordChar,
                     (r1.dropWhile isSpaceCh).takeWhile Char.isDigit), r2)
            | _ => none
        | _ => none
      | _ => none

/-- The common tail `\.empty\s*\(\s*\)` of `vector_empty_check_pattern`
(source line 7) and of the dynamically built suppression regex
`\b{vector}\.empty\s*\(\s*\)` (source line 55). -/
def emptyTail (r : List Char) : Bool :=
  match stripLit ['.', 'e', 'm', 'p', 't', 'y'] r with
  | none => false
  | some r1 =>
    match r1.dropWhile isSpaceCh with
    | '(' :: r2 =>
      match r2.dropWhile isSpaceCh with
      | ')' :: _ => true
      | _ => false
    | _ => false

/-- Attempt of `vector_empty_check_pattern`, the regex
`\b([a-zA-Z_]\w*)\.empty\s*\(\s*\)` (source line 7), at the current
position, returning the captured identifier on success. -/
def matchEmptyCaptureAt (prevWord : Bool) (s : List Char) : Option (List Char) :=
  match s with
  | [] => none
  | c :: cs =>
    if prevWord || !(isIdStart c) then none
    else if emptyTail (cs.dropWhile isWordChar) then some (c :: cs.takeWhile isWordChar)
    else none

/-- What `matchVectorAccess` does after the identifier `name` has been
consumed and the rest of the line is `r`: the `\s*\[\s*(\d+)\s*\]` tail. -/
def accessTail (name : List Char) (r : List Char) :
    Option ((List Char × List Char) × List Char) :=
  match r.dropWhile isSpaceCh with
  | '[' :: r1 =>
    if ((r1.dropWhile isSpaceCh).takeWhile Char.isDigit).isEmpty then none
    else
      match ((r1.dropWhile isSpaceCh).dropWhile Char.isDigit).dropWhile isSpaceCh with
      | ']' :: r2 =>
        some ((name, (r1.dropWhile isSpaceCh).takeWhile Char.isDigit), r2)
      | _ => none
  | _ => none

/-- What `matchVectorAt` does after the identifier `name` has been
consumed and the rest of the line is `r`: the `\.at\s*\(\s*(\d+)\s*\)` tail. -/
def atTail (name : List Char) (r : List Char) :
    Option ((List Char × List Char) × List Char) :=
  match r with
  | '.' :: 'a' :: 't' :: r0 =>
    match r0.dropWhile isSpaceCh with
    | '(' :: r1 =>
      if ((r1.dropWhile isSpaceCh).takeWhile Char.isDigit).isEmpty then none
      else
        match ((r1.dropWhile isSpaceCh).dropWhile Char.isDigit).dropWhile isSpaceCh with
        | ')' :: r2 =>
          some ((name, (r1.dropWhile isSpaceCh).takeWhile Char.isDigit), r2)
        | _ => none
    | _ => none
  | _ => none

/-- Whether the next character of the input is a word character (for `\b`). -/
def wordAt : List Char → Bool
  | [] => false
  | c :: _ => isWordChar c

/-- Attempt of the dynamically built regex `\b{name}\.empty\s*\(\s*\)`
(source line 55) at the current position: a word boundary, the literal
container name, then the `.empty()` tail. -/
def matchDynEmptyAt (name : List Char) (prevWord : Bool) (s : List Char) : Bool :=
  if prevWord == wordAt s then false
  else
    match stripLit name s with
    | some r => emptyTail r
    | none => false

/-- Fuel-indexed `re.finditer` scan for a matcher `M`: attempt a match at
each position; on success emit the captures and resume after the match
with word-boundary state `false` (each of the three patterns ends in `]`
or `)`); on failure advance one character, updating the boundary state. -/
def scanAux {α : Type} (M : Bool → List Char → Option (α × List Char)) :
    Nat → Bool → List Char → List α
  | 0, _, _ => []
  | fuel + 1, p, s =>
    match M p s with
    | some (a, r) => a :: scanAux M fuel false r
    | none =>
      match s with
      | [] => []
      | c :: rest => scanAux M fuel (isWordChar c) rest

/-- Embedding of `re.finditer(vector_access_pattern, line)` starting with boundary state `p`. -/
def scanAccessesFrom (p : Bool) (s : List Char) : List (List Char × List Char) :=
  scanAux matchVectorAccess (s.length + 1) p s

/-- All `vector_access_pattern` matches of a line (source line 18). -/
def findVectorAccesses (l : List Char) : List (List Char × List Char) :=
  scanAccessesFrom false l

/-- Embedding of `re.finditer(vector_at_pattern, line)` starting with boundary state `p`. -/
def scanAtsFrom (p : Bool) (s : List Char) : List (List Char × List Char) :=
  scanAux matchVectorAt (s.length + 1) p s

/-- All `vector_at_pattern` matches of a line (source line 25). -/
def findVectorAts (l : List Char) : List (List Char × List Char) :=
  scanAtsFrom false l

/-- Embedding of `re.search` of the dynamic suppression regex: attempt at every
position of the line (source line 55). -/
def searchDynEmptyAux (name : List Char) : Bool → List Char → Bool
  | p, [] => matchDynEmptyAt name p []
  | p, c :: rest => matchDynEmptyAt name p (c :: rest) || searchDynEmptyAux name (isWordChar c) rest

/-- Whether the dynamic regex search of source line 54, `re.search` of the
backslash-b name dot-empty pattern, finds a match on the line. -/
def searchDynEmpty (name : List Char) (line : List Char) : Bool :=
  searchDynEmptyAux name false line

/-- Whether some position of the line carries an occurrence of
`vector_empty_check_pattern` whose captured identifier is exactly `name`. -/
def existsEmptyCaptureAux (name : List Char) : Bool → List Char → Bool
  | p, [] => matchEmptyCaptureAt p [] == some name
  | p, c :: rest =>
    (matchEmptyCaptureAt p (c :: rest) == some name) ||
      existsEmptyCaptureAux name (isWordChar c) rest

/-- The line contains an `EmptyCheck` occurrence for `name`. -/
def existsEmptyCapture (name : List Char) (line : List Char) : Bool :=
  existsEmptyCaptureAux name false line

/-- A valid identifier as captured by the patterns: `[a-zA-Z_]\w*`. -/
def isValidIdent : List Char → Bool
  | [] => false
  | c :: cs => isIdStart c && cs.all isWordChar

/-- A single-quote character, written by code point to keep source text plain. -/
def sq : String := String.singleton (Char.ofNat 39)

/-- The f-string of source line 22. -/
def outOfRangeMsg (name idx : List Char) (n : Nat) : String :=
  "Warning: Potential out-of-range access using " ++ sq ++ String.mk name ++
    "[" ++ String.mk idx ++ "]" ++ sq ++ " at line " ++ toString n

/-- The f-string of source line 29. -/
def safeAccessMsg (name idx : List Char) (n : Nat) : String :=
  "Info: Safe access found using " ++ sq ++ String.mk name ++
    ".at(" ++ String.mk idx ++ ")" ++ sq ++ " at line " ++ toString n

/-- The f-string of source line 59. -/
def missingEmptyMsg (name : List Char) (n : Nat) : String :=
  "Warning: No empty() check found before accessing " ++ sq ++ String.mk name ++
    sq ++ " at line " ++ toString n

/-- Issues one line contributes in `check_vector_access`: all `[]` matches
first, then all `.at()` matches (source lines 16-29). -/
def lineScanIssues (n : Nat) (l : List Char) : List String :=
  (findVectorAccesses l).map (fun m => outOfRangeMsg m.1 m.2 n) ++
    (findVectorAts l).map (fun m => safeAccessMsg m.1 m.2 n)

/-- The per-line loop of `check_vector_access`, with `enumerate(file_lines,
start=1)` modelled by the counter `n`. -/
def check_vector_access_from (n : Nat) : List String → List String
  | [] => []
  | l :: rest => lineScanIssues n l.data ++ check_vector_access_from (n + 1) rest

/-- Embedding of `check_vector_access` (source lines 9-31). -/
def check_vector_access (file_lines : List String) : List String :=
  check_vector_access_from 1 file_lines

/-- An `AccessRecord` is the tuple `(vector_name, line_num)` added to the
`vectors_accessed` set (source lines 45 and 50). -/
abbrev AccessRecord := List Char × Nat

/-- The records one line contributes: `[]` matches then `.at()` matches,
in the order the source adds them. -/
def lineRecords (n : Nat) (l : List Char) : List AccessRecord :=
  (findVectorAccesses l).map (fun m => (m.1, n)) ++
    (findVectorAts l).map (fun m => (m.1, n))

/-- Python set insertion (`set.add`) modelled as append-if-absent. -/
def insertRecord (s : List AccessRecord) (r : AccessRecord) : List AccessRecord :=
  if r ∈ s then s else s ++ [r]

/-- The collection loop of `check_empty_before_access` (source lines 41-50). -/
def collectAccessedFrom (n : Nat) (acc : List AccessRecord) : List String → List AccessRecord
  | [] => acc
  | l :: rest => collectAccessedFrom (n + 1) ((lineRecords n l.data).foldl insertRecord acc) rest

/-- The `vectors_accessed` set after the collection loop. -/
def vectors_accessed (file_lines : List String) : List AccessRecord :=
  collectAccessedFrom 1 [] file_lines

/-- The records that fail the `empty_check_found` test (source lines 53-58). -/
def missingEmptyRecords (file_lines : List String) : List AccessRecord :=
  (vectors_accessed file_lines).filter
    (fun r => !(file_lines.any (fun l => searchDynEmpty r.1 l.data)))

/-- Embedding of `check_empty_before_access` (source lines 33-61). -/
def check_empty_before_access (file_lines : List String) : List String :=
  (missingEmptyRecords file_lines).map (fun r => missingEmptyMsg r.1 r.2)

/-- The printed report of `analyze_cpp_file` (source lines 70-79), as the
list of printed lines. -/
def renderReport (path : String) (file_lines : List String) : List String :=
  let issues := check_vector_access file_lines ++ check_empty_before_access file_lines
  if issues.isEmpty then ["No issues found in " ++ path]
  else ("Issues found in " ++ path ++ ":") :: issues.map (fun i => "  " ++ i)

/-- Embedding of `analyze_cpp_file` (source lines 63-79).  The `open`/`readlines` call
happens before any output, so its result is passed in as an `Except`: an
`IOError` propagates unchanged and produces no report lines. -/
def analyze_cpp_file (path : String) (contents : Except String (List String)) :
    Except String (List String) :=
  match contents with
  | .error e => .error e
  | .ok file_lines => .ok (renderReport path file_lines)

/-- Container names mentioned by either access pattern on a line. -/
def lineAccessNames (l : List Char) : List (List Char) :=
  (findVectorAccesses l).map Prod.fst ++ (findVectorAts l).map Prod.fst

/-- The single-line file content of the end-to-end example. -/
def exampleLine : String :=
  "std::vector<int> v; if (!v.empty()) \x7b x = v.at(0); y = v[2]; \x7d"

theorem length_dropWhile_le' (p : Char → Bool) (l : List Char) :
    (l.dropWhile p).length ≤ l.length := (List.dropWhile_sublist p).length_le

theorem matchVectorAccess_length {p : Bool} {s : List Char}
    {a : List Char × List Char} {r : List Char}
    (h : matchVectorAccess p s = some (a, r)) : r.length < s.length := by
  match s with
  | [] => simp [matchVectorAccess] at h
  | c :: cs =>
    simp only [matchVectorAccess] at h
    split at h
    · exact absurd h (by simp)
    · split at h
      next r1 heq1 =>
        split at h
        · exact absurd h (by simp)
        · split at h
          next r2 heq2 =>
            injection h with h
            injection h with h1 h2
            subst h2
            have e1 : (('[' : Char) :: r1).length ≤ cs.length := by
              rw [← heq1]
              exact le_trans (length_dropWhile_le' _ _) (length_dropWhile_le' _ _)
            have e2 : ((']' : Char) :: r2).length ≤ r1.length := by
              rw [← heq2]
              refine le_trans (length_dropWhile_le' _ _) ?_
              refine le_trans (length_dropWhile_le' _ _) (length_dropWhile_le' _ _)
            simp only [List.length_cons] at e1 e2 ⊢
            omega
          next => exact absurd h (by simp)
      next => exact absurd h (by simp)

theorem matchVectorAt_length {p : Bool} {s : List Char}
    {a : List Char × List Char} {r : List Char}
    (h : matchVectorAt p s = some (a, r)) : r.length < s.length := by
  match s with
  | [] => simp [matchVectorAt] at h
  | c :: cs =>
    simp only [matchVectorAt] at h
    split at h
    · exact absurd h (by simp)
    · split at h
      next r0 heq0 =>
        split at h
        next r1 heq1 =>
          split at h
          · exact absurd h (by simp)
          · split at h
            next r2 heq2 =>
              injection h with h
              injection h with h1 h2
              subst h2
              have e0 : (('.' : Char) :: 'a' :: 't' :: r0).length ≤ cs.length := by
                rw [← heq0]; exact length_dropWhile_le' _ _
              have e1 : (('(' : Char) :: r1).length ≤ r0.length := by
                rw [← heq1]; exact length_dropWhile_le' _ _
              have e2 : ((')' : Char) :: r2).length ≤ r1.length := by
                rw [← heq2]
                refine le_trans (length_dropWhile_le' _ _) ?_
                exact le_trans (length_dropWhile_le' _ _) (length_dropWhile_le' _ _)
              simp only [List.length_cons] at e0 e1 e2 ⊢
              omega
            next => exact absurd h (by simp)
        next => exact absurd h (by simp)
      next => exact absurd h (by simp)

theorem scanAux_succ {α : Type} (M : Bool → List Char → Option (α × List Char))
    (fuel : Nat) (p : Bool) (s : List Char) :
    scanAux M (fuel + 1) p s =
      (match M p s with
       | some (a, r) => a :: scanAux M fuel false r
       | none =>
         match s with
         | [] => []
         | c :: rest => scanAux M fuel (isWordChar c) rest) := rfl

theorem scanAux_congr {α : Type} (M : Bool → List Char → Option (α × List Char))
    (hM : ∀ p s a r, M p s = some (a, r) → r.length < s.length) :
    ∀ f₁ f₂ p s, s.length < f₁ → s.length < f₂ → scanAux M f₁ p s = scanAux M f₂ p s := by
  intro f₁
  induction f₁ with
  | zero => intro f₂ p s h1 _; omega
  | succ g ih =>
    intro f₂ p s h1 h2
    match f₂ with
    | 0 => omega
    | f2g + 1 =>
      rw [scanAux_succ, scanAux_succ]
      cases hm : M p s with
      | some ar =>
        obtain ⟨a, r⟩ := ar
        have hr := hM p s a r hm
        exact congrArg (a :: ·) (ih f2g false r (by omega) (by omega))
      | none =>
        cases s with
        | nil => rfl
        | cons c rest =>
          exact ih f2g (isWordChar c) rest (by simp only [List.length_cons] at h1; omega)
            (by simp only [List.length_cons] at h2; omega)

theorem scanAccessesFrom_nil (p : Bool) : scanAccessesFrom p [] = [] := rfl

theorem scanAtsFrom_nil (p : Bool) : scanAtsFrom p [] = [] := rfl

theorem scanAccessesFrom_cons (p : Bool) (c : Char) (rest : List Char) :
    scanAccessesFrom p (c :: rest) =
      (match matchVectorAccess p (c :: rest) with
       | some (a, r) => a :: scanAccessesFrom false r
       | none => scanAccessesFrom (isWordChar c) rest) := by
  show scanAux matchVectorAccess ((c :: rest).length + 1) p (c :: rest) = _
  rw [List.length_cons, scanAux_succ]
  cases hm : matchVectorAccess p (c :: rest) with
  | some ar =>
    obtain ⟨a, r⟩ := ar
    have hr := matchVectorAccess_length hm
    simp only [List.length_cons] at hr
    show a :: scanAux matchVectorAccess (rest.length + 1) false r = a :: scanAccessesFrom false r
    exact congrArg (a :: ·)
      (scanAux_congr matchVectorAccess (fun _ _ _ _ hx => matchVectorAccess_length hx)
        (rest.length + 1) (r.length + 1) false r (by omega) (by omega))
  | none => rfl

theorem scanAtsFrom_cons (p : Bool) (c : Char) (rest : List Char) :
    scanAtsFrom p (c :: rest) =
      (match matchVectorAt p (c :: rest) with
       | some (a, r) => a :: scanAtsFrom false r
       | none => scanAtsFrom (isWordChar c) rest) := by
  show scanAux matchVectorAt ((c :: rest).length + 1) p (c :: rest) = _
  rw [List.length_cons, scanAux_succ]
  cases hm : matchVectorAt p (c :: rest) with
  | some ar =>
    obtain ⟨a, r⟩ := ar
    have hr := matchVectorAt_length hm
    simp only [List.length_cons] at hr
    show a :: scanAux matchVectorAt (rest.length + 1) false r = a :: scanAtsFrom false r
    exact congrArg (a :: ·)
      (scanAux_congr matchVectorAt (fun _ _ _ _ hx => matchVectorAt_length hx)
        (rest.length + 1) (r.length + 1) false r (by omega) (by omega))
  | none => rfl

theorem matchVectorAccess_prevWord_true (s : List Char) : matchVectorAccess true s = none := by
  cases s <;> simp [matchVectorAccess]

theorem matchVectorAt_prevWord_true (s : List Char) : matchVectorAt true s = none := by
  cases s <;> simp [matchVectorAt]

theorem isWordChar_of_isIdStart {c : Char} (h : isIdStart c = true) : isWordChar c = true := by
  simp only [isIdStart, Bool.or_eq_true] at h
  rcases h with h | h <;> simp [isWordChar, Char.isAlphanum, h]

theorem scanAccessesFrom_skip {cs : List Char} (r : List Char)
    (h : ∀ x ∈ cs, isWordChar x = true) :
    scanAccessesFrom true (cs ++ r) = scanAccessesFrom true r := by
  induction cs with
  | nil => rfl
  | cons c cs ih =>
    have hc : isWordChar c = true := h c (List.mem_cons_self _ _)
    rw [List.cons_append, scanAccessesFrom_cons, matchVectorAccess_prevWord_true, hc]
    exact ih (fun x hx => h x (List.mem_cons_of_mem _ hx))

theorem scanAtsFrom_skip {cs : List Char} (r : List Char)
    (h : ∀ x ∈ cs, isWordChar x = true) :
    scanAtsFrom true (cs ++ r) = scanAtsFrom true r := by
  induction cs with
  | nil => rfl
  | cons c cs ih =>
    have hc : isWordChar c = true := h c (List.mem_cons_self _ _)
    rw [List.cons_append, scanAtsFrom_cons, matchVectorAt_prevWord_true, hc]
    exact ih (fun x hx => h x (List.mem_cons_of_mem _ hx))

theorem takeWhile_append_of_all {q : Char → Bool} {l : List Char} (r : List Char)
    (h : ∀ x ∈ l, q x = true) : (l ++ r).takeWhile q = l ++ r.takeWhile q := by
  induction l with
  | nil => simp
  | cons c l ih =>
    have hc := h c (List.mem_cons_self _ _)
    simp [List.takeWhile_cons, hc, ih (fun x hx => h x (List.mem_cons_of_mem _ hx))]

theorem dropWhile_append_of_all {q : Char → Bool} {l : List Char} (r : List Char)
    (h : ∀ x ∈ l, q x = true) : (l ++ r).dropWhile q = r.dropWhile q := by
  induction l with
  | nil => simp
  | cons c l ih =>
    have hc := h c (List.mem_cons_self _ _)
    simp [List.dropWhile_cons, hc, ih (fun x hx => h x (List.mem_cons_of_mem _ hx))]

theorem takeWhile_word_of_headNeg {r : List Char} (hr : wordAt r = false) :
    r.takeWhile isWordChar = [] := by
  cases r with
  | nil => rfl
  | cons c cr => simp only [wordAt] at hr; simp [List.takeWhile_cons, hr]

theorem dropWhile_word_of_headNeg {r : List Char} (hr : wordAt r = false) :
    r.dropWhile isWordChar = r := by
  cases r with
  | nil => rfl
  | cons c cr => simp only [wordAt] at hr; simp [List.dropWhile_cons, hr]

theorem isValidIdent_parts {name : List Char} (h : isValidIdent name = true) :
    ∃ c cs, name = c :: cs ∧ isIdStart c = true ∧ ∀ x ∈ cs, isWordChar x = true := by
  cases name with
  | nil => simp [isValidIdent] at h
  | cons c cs =>
    simp only [isValidIdent, Bool.and_eq_true, List.all_eq_true] at h
    exact ⟨c, cs, rfl, h.1, fun x hx => h.2 x hx⟩

theorem matchVectorAccess_ident (c : Char) (cs r : List Char)
    (hc : isIdStart c = true) (hcs : ∀ x ∈ cs, isWordChar x = true) (hr : wordAt r = false) :
    matchVectorAccess false (c :: (cs ++ r)) = accessTail (c :: cs) r := by
  simp only [matchVectorAccess, accessTail, hc, Bool.not_true, Bool.or_false, Bool.false_or,
    dropWhile_append_of_all r hcs, dropWhile_word_of_headNeg hr,
    takeWhile_append_of_all r hcs, takeWhile_word_of_headNeg hr, List.append_nil]
  rfl

theorem matchVectorAt_ident (c : Char) (cs r : List Char)
    (hc : isIdStart c = true) (hcs : ∀ x ∈ cs, isWordChar x = true) (hr : wordAt r = false) :
    matchVectorAt false (c :: (cs ++ r)) = atTail (c :: cs) r := by
  simp only [matchVectorAt, atTail, hc, Bool.not_true, Bool.or_false, Bool.false_or,
    dropWhile_append_of_all r hcs, dropWhile_word_of_headNeg hr,
    takeWhile_append_of_all r hcs, takeWhile_word_of_headNeg hr, List.append_nil]
  rfl

theorem findAccesses_ident (name r : List Char) (h : isValidIdent name = true) :
    findVectorAccesses (name ++ r) =
      (match matchVectorAccess false (name ++ r) with
       | some (a, rest) => a :: scanAccessesFrom false rest
       | none => scanAccessesFrom true r) := by
  obtain ⟨c, cs, rfl, hc, hcs⟩ := isValidIdent_parts h
  rw [List.cons_append]
  show scanAccessesFrom false (c :: (cs ++ r)) = _
  rw [scanAccessesFrom_cons, isWordChar_of_isIdStart hc, scanAccessesFrom_skip r hcs]

theorem findAts_ident (name r : List Char) (h : isValidIdent name = true) :
    findVectorAts (name ++ r) =
      (match matchVectorAt false (name ++ r) with
       | some (a, rest) => a :: scanAtsFrom false rest
       | none => scanAtsFrom true r) := by
  obtain ⟨c, cs, rfl, hc, hcs⟩ := isValidIdent_parts h
  rw [List.cons_append]
  show scanAtsFrom false (c :: (cs ++ r)) = _
  rw [scanAtsFrom_cons, isWordChar_of_isIdStart hc, scanAtsFrom_skip r hcs]

theorem stripLit_eq_append {l s r : List Char} (h : stripLit l s = some r) : s = l ++ r := by
  induction l generalizing s with
  | nil =>
    simp only [stripLit, Option.some.injEq] at h
    simpa using h
  | cons c cs ih =>
    cases s with
    | nil => simp [stripLit] at h
    | cons x xs =>
      simp only [stripLit] at h
      by_cases hx : (x == c) = true
      · rw [if_pos hx] at h
        have hxc : x = c := by simpa using hx
        subst hxc
        simpa using ih h
      · rw [if_neg hx] at h
        exact absurd h (by simp)

theorem stripLit_takeWhile (q : Char → Bool) (l : List Char) :
    stripLit (l.takeWhile q) l = some (l.dropWhile q) := by
  induction l with
  | nil => rfl
  | cons c l ih =>
    by_cases hq : q c = true
    · simp [List.takeWhile_cons, List.dropWhile_cons, hq, stripLit, ih]
    · simp only [List.takeWhile_cons, List.dropWhile_cons, hq]
      simp [stripLit, hq]

theorem emptyTail_head {r : List Char} (h : emptyTail r = true) : wordAt r = false := by
  unfold emptyTail at h
  cases r with
  | nil => simp [stripLit] at h
  | cons x xs =>
    by_cases hx : (x == ('.' : Char)) = true
    · have hxc : x = '.' := by simpa using hx
      subst hxc
      simp only [wordAt]
      decide
    · simp [stripLit, hx] at h

theorem stripLit_self_append (l r : List Char) : stripLit l (l ++ r) = some r := by
  induction l with
  | nil => rfl
  | cons c cs ih => simp [stripLit, ih]

theorem dynEmpty_eq_capture {name : List Char} (h : isValidIdent name = true)
    (p : Bool) (s : List Char) :
    matchDynEmptyAt name p s = (matchEmptyCaptureAt p s == some name) := by
  obtain ⟨c, cs, rfl, hc, hcs⟩ := isValidIdent_parts h
  cases s with
  | nil => cases p <;> rfl
  | cons x xs =>
    cases p with
    | true =>
      have hrhs : matchEmptyCaptureAt true (x :: xs) = none := by simp [matchEmptyCaptureAt]
      rw [hrhs]
      by_cases hw : isWordChar x = true
      · simp [matchDynEmptyAt, wordAt, hw]
      · have hw' : isWordChar x = false := by simpa using hw
        have hxc : (x == c) = false := by
          rw [beq_eq_false_iff_ne]
          intro he
          rw [he, isWordChar_of_isIdStart hc] at hw'
          exact absurd hw' (by simp)
        simp [matchDynEmptyAt, wordAt, hw', stripLit, hxc]
    | false =>
      by_cases hww : isWordChar x = true
      · by_cases hxc : x = c
        · subst hxc
          cases hst : stripLit cs xs with
          | some r =>
            have hxs : xs = cs ++ r := stripLit_eq_append hst
            subst hxs
            have hL : matchDynEmptyAt (x :: cs) false (x :: (cs ++ r)) = emptyTail r := by
              simp [matchDynEmptyAt, wordAt, hww, stripLit, stripLit_self_append]
            rw [hL]
            cases het : emptyTail r with
            | true =>
              have hwr : wordAt r = false := emptyTail_head het
              have hR : matchEmptyCaptureAt false (x :: (cs ++ r)) = some (x :: cs) := by
                simp only [matchEmptyCaptureAt, hc, Bool.not_true, Bool.or_false, Bool.false_or,
                  Bool.false_eq_true, if_false]
                rw [dropWhile_append_of_all r hcs, dropWhile_word_of_headNeg hwr, het,
                    takeWhile_append_of_all r hcs, takeWhile_word_of_headNeg hwr, List.append_nil]
                simp
              rw [hR]
              simp
            | false =>
              cases hwr : wordAt r with
              | false =>
                have hR : matchEmptyCaptureAt false (x :: (cs ++ r)) = none := by
                  simp only [matchEmptyCaptureAt, hc, Bool.not_true, Bool.or_false, Bool.false_or,
                    Bool.false_eq_true, if_false]
                  rw [dropWhile_append_of_all r hcs, dropWhile_word_of_headNeg hwr, het]
                  simp
                rw [hR]
                rfl
              | true =>
                cases r with
                | nil => simp [wordAt] at hwr
                | cons y t =>
                  simp only [wordAt] at hwr
                  have hR : (matchEmptyCaptureAt false (x :: (cs ++ y :: t)) == some (x :: cs)) = false := by
                    simp only [matchEmptyCaptureAt, hc, Bool.not_true, Bool.or_false, Bool.false_or,
                      Bool.false_eq_true, if_false]
                    rw [takeWhile_append_of_all _ hcs, List.takeWhile_cons_of_pos hwr]
                    split
                    · rw [beq_eq_false_iff_ne]
                      simp only [ne_eq, Option.some.injEq, List.cons.injEq]
                      rintro ⟨-, he⟩
                      have := congrArg List.length he
                      simp at this
                    · rfl
                  rw [hR]
          | none =>
            have hL : matchDynEmptyAt (x :: cs) false (x :: xs) = false := by
              simp [matchDynEmptyAt, wordAt, hww, stripLit, hst]
            rw [hL]
            have htw : xs.takeWhile isWordChar ≠ cs := by
              intro he
              have hs := stripLit_takeWhile isWordChar xs
              rw [he, hst] at hs
              exact absurd hs (by simp)
            have hR : (matchEmptyCaptureAt false (x :: xs) == some (x :: cs)) = false := by
              simp only [matchEmptyCaptureAt, hc, Bool.not_true, Bool.or_false, Bool.false_or,
                Bool.false_eq_true, if_false]
              split
              · rw [beq_eq_false_iff_ne]
                simp only [ne_eq, Option.some.injEq, List.cons.injEq]
                rintro ⟨-, he⟩
                exact htw he
              · rfl
            rw [hR]
        · have hxc' : (x == c) = false := by
            rw [beq_eq_false_iff_ne]; exact hxc
          have hL : matchDynEmptyAt (c :: cs) false (x :: xs) = false := by
            simp [matchDynEmptyAt, wordAt, hww, stripLit, hxc']
          rw [hL]
          have hR : (matchEmptyCaptureAt false (x :: xs) == some (c :: cs)) = false := by
            by_cases hix : isIdStart x = true
            · simp only [matchEmptyCaptureAt, hix, Bool.not_true, Bool.or_false, Bool.false_or,
                Bool.false_eq_true, if_false]
              split
              · rw [beq_eq_false_iff_ne]
                simp only [ne_eq, Option.some.injEq, List.cons.injEq]
                rintro ⟨he, -⟩
                exact hxc he
              · rfl
            · have hix' : isIdStart x = false := by simpa using hix
              simp [matchEmptyCaptureAt, hix']
          rw [hR]
      · have hw' : isWordChar x = false := by simpa using hww
        have hix : isIdStart x = false := by
          cases hix : isIdStart x
          · rfl
          · have := isWordChar_of_isIdStart hix
            rw [hw'] at this
            exact absurd this (by simp)
        have hrhs : matchEmptyCaptureAt false (x :: xs) = none := by
          simp [matchEmptyCaptureAt, hix]
        rw [hrhs]
        simp [matchDynEmptyAt, wordAt, hw']

theorem searchDyn_eq_existsCapture {name : List Char} (h : isValidIdent name = true) :
    ∀ s p, searchDynEmptyAux name p s = existsEmptyCaptureAux name p s := by
  intro s
  induction s with
  | nil => intro p; exact dynEmpty_eq_capture h p []
  | cons c rest ih =>
    intro p
    show (matchDynEmptyAt name p (c :: rest) || searchDynEmptyAux name (isWordChar c) rest) =
      ((matchEmptyCaptureAt p (c :: rest) == some name) || existsEmptyCaptureAux name (isWordChar c) rest)
    exact congrArg₂ (· || ·) (dynEmpty_eq_capture h p (c :: rest)) (ih (isWordChar c))

theorem mem_insertRecord {x r : AccessRecord} {s : List AccessRecord} :
    x ∈ insertRecord s r ↔ x ∈ s ∨ x = r := by
  unfold insertRecord
  split
  next hin =>
    constructor
    · exact .inl
    · rintro (hx | rfl)
      · exact hx
      · exact hin
  next => simp [List.mem_append]

theorem mem_foldl_insert {rs : List AccessRecord} :
    ∀ {s : List AccessRecord} {x : AccessRecord},
      x ∈ rs.foldl insertRecord s ↔ x ∈ s ∨ x ∈ rs := by
  induction rs with
  | nil => simp
  | cons a rs ih =>
    intro s x
    rw [List.foldl_cons, ih, mem_insertRecord, List.mem_cons]
    tauto

theorem nodup_insertRecord {s : List AccessRecord} (r : AccessRecord) (h : s.Nodup) :
    (insertRecord s r).Nodup := by
  unfold insertRecord
  split
  next => exact h
  next hn => simp [List.nodup_append, h, hn]

theorem nodup_foldl_insert {rs : List AccessRecord} :
    ∀ {s : List AccessRecord}, s.Nodup → (rs.foldl insertRecord s).Nodup := by
  induction rs with
  | nil => intro s h; exact h
  | cons a rs ih =>
    intro s h
    exact ih (nodup_insertRecord a h)

theorem mem_lineRecords {a : List Char} {m n : Nat} {l : List Char} :
    (a, m) ∈ lineRecords n l ↔ a ∈ lineAccessNames l ∧ m = n := by
  simp only [lineRecords, lineAccessNames, List.mem_append, List.mem_map, Prod.mk.injEq]
  constructor
  · rintro (⟨x, hx, rfl, rfl⟩ | ⟨x, hx, rfl, rfl⟩)
    · exact ⟨.inl ⟨x, hx, rfl⟩, rfl⟩
    · exact ⟨.inr ⟨x, hx, rfl⟩, rfl⟩
  · rintro ⟨(⟨x, hx, rfl⟩ | ⟨x, hx, rfl⟩), rfl⟩
    · exact .inl ⟨x, hx, rfl, rfl⟩
    · exact .inr ⟨x, hx, rfl, rfl⟩

theorem mem_collectAccessedFrom :
    ∀ (ls : List String) (n : Nat) (acc : List AccessRecord) (x : AccessRecord),
      x ∈ collectAccessedFrom n acc ls ↔
        x ∈ acc ∨ ∃ i l, ls[i]? = some l ∧ x.1 ∈ lineAccessNames l.data ∧ x.2 = n + i := by
  intro ls
  induction ls with
  | nil => intro n acc x; simp [collectAccessedFrom]
  | cons l rest ih =>
    intro n acc x
    show x ∈ collectAccessedFrom (n + 1) ((lineRecords n l.data).foldl insertRecord acc) rest ↔ _
    rw [ih, mem_foldl_insert]
    constructor
    · rintro ((hx | hx) | ⟨i, l', hget, hn, hm⟩)
      · exact .inl hx
      · right
        obtain ⟨a, m⟩ := x
        rw [mem_lineRecords] at hx
        exact ⟨0, l, by simp, hx.1, by simpa using hx.2⟩
      · right
        exact ⟨i + 1, l', by simpa using hget, hn, by omega⟩
    · rintro (hx | ⟨i, l', hget, hn, hm⟩)
      · exact .inl (.inl hx)
      · cases i with
        | zero =>
          left; right
          obtain ⟨a, m⟩ := x
          have hl : l' = l := by simpa using hget.symm
          subst hl
          rw [mem_lineRecords]
          exact ⟨hn, by omega⟩
        | succ j =>
          right
          exact ⟨j, l', by simpa using hget, hn, by omega⟩

theorem nodup_vectors_accessed (file_lines : List String) :
    (vectors_accessed file_lines).Nodup := by
  have gen : ∀ (ls : List String) (n : Nat) (acc : List AccessRecord),
      acc.Nodup → (collectAccessedFrom n acc ls).Nodup := by
    intro ls
    induction ls with
    | nil => intro n acc h; exact h
    | cons l rest ih => intro n acc h; exact ih (n + 1) _ (nodup_foldl_insert h)
  exact gen file_lines 1 [] List.nodup_nil

theorem mem_missingEmptyRecords {file_lines : List String} {name : List Char} {n : Nat} :
    (name, n) ∈ missingEmptyRecords file_lines ↔
      (name, n) ∈ vectors_accessed file_lines ∧
        ¬ ∃ l ∈ file_lines, searchDynEmpty name l.data = true := by
  simp [missingEmptyRecords, List.mem_filter, List.any_eq_true]

theorem mem_check_vector_access_from :
    ∀ (ls : List String) (k i : Nat) (l : String) (x : String),
      ls[i]? = some l → x ∈ lineScanIssues (k + i) l.data → x ∈ check_vector_access_from k ls := by
  intro ls
  induction ls with
  | nil => intro k i l x h; simp at h
  | cons hd rest ih =>
    intro k i l x hget hx
    show x ∈ lineScanIssues k hd.data ++ check_vector_access_from (k + 1) rest
    rw [List.mem_append]
    cases i with
    | zero =>
      left
      have hl : l = hd := by simpa using hget.symm
      subst hl
      simpa using hx
    | succ j =>
      right
      refine ih (k + 1) j l x (by simpa using hget) ?_
      have harith : k + 1 + j = k + (j + 1) := by omega
      rwa [harith]

theorem lineIssue_of_name {name : List Char} {l : List Char} (n : Nat)
    (h : name ∈ lineAccessNames l) :
    ∃ idx, outOfRangeMsg name idx n ∈ lineScanIssues n l ∨
      safeAccessMsg name idx n ∈ lineScanIssues n l := by
  rw [lineAccessNames, List.mem_append] at h
  rcases h with h | h
  · rw [List.mem_map] at h
    obtain ⟨m, hm, he⟩ := h
    subst he
    refine ⟨m.2, .inl ?_⟩
    rw [lineScanIssues, List.mem_append]
    exact .inl (List.mem_map.mpr ⟨m, hm, rfl⟩)
  · rw [List.mem_map] at h
    obtain ⟨m, hm, he⟩ := h
    subst he
    refine ⟨m.2, .inr ?_⟩
    rw [lineScanIssues, List.mem_append]
    exact .inr (List.mem_map.mpr ⟨m, hm, rfl⟩)

theorem check_vector_access_single (l : List Char) :
    check_vector_access [String.mk l] =
      (findVectorAccesses l).map (fun m => outOfRangeMsg m.1 m.2 1) ++
        (findVectorAts l).map (fun m => safeAccessMsg m.1 m.2 1) := by
  show lineScanIssues 1 l ++ [] = _
  rw [List.append_nil, lineScanIssues]

theorem findAccesses_br3 (name : List Char) (h : isValidIdent name = true) :
    findVectorAccesses (name ++ ['[', '3', ']']) = [(name, ['3'])] := by
  rw [findAccesses_ident name _ h]
  obtain ⟨c, cs, rfl, hc, hcs⟩ := isValidIdent_parts h
  rw [List.cons_append, matchVectorAccess_ident c cs _ hc hcs (by decide)]
  rfl

theorem findAts_br3 (name : List Char) (h : isValidIdent name = true) :
    findVectorAts (name ++ ['[', '3', ']']) = [] := by
  rw [findAts_ident name _ h]
  obtain ⟨c, cs, rfl, hc, hcs⟩ := isValidIdent_parts h
  rw [List.cons_append, matchVectorAt_ident c cs _ hc hcs (by decide)]
  rfl

theorem findAccesses_sp_br3 (name : List Char) (h : isValidIdent name = true) :
    findVectorAccesses (name ++ [' ', '[', '3', ']']) = [(name, ['3'])] := by
  rw [findAccesses_ident name _ h]
  obtain ⟨c, cs, rfl, hc, hcs⟩ := isValidIdent_parts h
  rw [List.cons_append, matchVectorAccess_ident c cs _ hc hcs (by decide)]
  rfl

theorem findAts_sp_br3 (name : List Char) (h : isValidIdent name = true) :
    findVectorAts (name ++ [' ', '[', '3', ']']) = [] := by
  rw [findAts_ident name _ h]
  obtain ⟨c, cs, rfl, hc, hcs⟩ := isValidIdent_parts h
  rw [List.cons_append, matchVectorAt_ident c cs _ hc hcs (by decide)]
  rfl

theorem findAccesses_bri (name : List Char) (h : isValidIdent name = true) :
    findVectorAccesses (name ++ ['[', 'i', ']']) = [] := by
  rw [findAccesses_ident name _ h]
  obtain ⟨c, cs, rfl, hc, hcs⟩ := isValidIdent_parts h
  rw [List.cons_append, matchVectorAccess_ident c cs _ hc hcs (by decide)]
  rfl

theorem findAts_bri (name : List Char) (h : isValidIdent name = true) :
    findVectorAts (name ++ ['[', 'i', ']']) = [] := by
  rw [findAts_ident name _ h]
  obtain ⟨c, cs, rfl, hc, hcs⟩ := isValidIdent_parts h
  rw [List.cons_append, matchVectorAt_ident c cs _ hc hcs (by decide)]
  rfl

theorem findAccesses_brx (name : List Char) (h : isValidIdent name = true) :
    findVectorAccesses (name ++ ['[', 'x', '+', '1', ']']) = [] := by
  rw [findAccesses_ident name _ h]
  obtain ⟨c, cs, rfl, hc, hcs⟩ := isValidIdent_parts h
  rw [List.cons_append, matchVectorAccess_ident c cs _ hc hcs (by decide)]
  rfl

theorem findAts_brx (name : List Char) (h : isValidIdent name = true) :
    findVectorAts (name ++ ['[', 'x', '+', '1', ']']) = [] := by
  rw [findAts_ident name _ h]
  obtain ⟨c, cs, rfl, hc, hcs⟩ := isValidIdent_parts h
  rw [List.cons_append, matchVectorAt_ident c cs _ hc hcs (by decide)]
  rfl

theorem findAccesses_dotSpAt (name : List Char) (h : isValidIdent name = true) :
    findVectorAccesses (name ++ ['.', ' ', 'a', 't', '(', '3', ')']) = [] := by
  rw [findAccesses_ident name _ h]
  obtain ⟨c, cs, rfl, hc, hcs⟩ := isValidIdent_parts h
  rw [List.cons_append, matchVectorAccess_ident c cs _ hc hcs (by decide)]
  rfl

theorem findAts_dotSpAt (name : List Char) (h : isValidIdent name = true) :
    findVectorAts (name ++ ['.', ' ', 'a', 't', '(', '3', ')']) = [] := by
  rw [findAts_ident name _ h]
  obtain ⟨c, cs, rfl, hc, hcs⟩ := isValidIdent_parts h
  rw [List.cons_append, matchVectorAt_ident c cs _ hc hcs (by decide)]
  rfl

theorem findAccesses_atSp (name : List Char) (h : isValidIdent name = true) :
    findVectorAccesses (name ++ ['.', 'a', 't', ' ', '(', '3', ')']) = [] := by
  rw [findAccesses_ident name _ h]
  obtain ⟨c, cs, rfl, hc, hcs⟩ := isValidIdent_parts h
  rw [List.cons_append, matchVectorAccess_ident c cs _ hc hcs (by decide)]
  rfl

theorem findAts_atSp (name : List Char) (h : isValidIdent name = true) :
    findVectorAts (name ++ ['.', 'a', 't', ' ', '(', '3', ')']) = [(name, ['3'])] := by
  rw [findAts_ident name _ h]
  obtain ⟨c, cs, rfl, hc, hcs⟩ := isValidIdent_parts h
  rw [List.cons_append, matchVectorAt_ident c cs _ hc hcs (by decide)]
  rfl

/-- C1: on the single-line file
`std::vector<int> v; if (!v.empty()) { x = v.at(0); y = v[2]; }` the full
analysis prints the `Issues found` header followed by exactly two issue
lines, the OutOfRangeWarning for `v[2]` at line 1 first and the
SafeAccessInfo for `v.at(0)` at line 1 second, and the second pass emits
no MissingEmptyCheckWarning because `v.empty()` occurs in the file. -/
theorem claim_C1_end_to_end (path : String) :
    renderReport path [exampleLine] =
      ["Issues found in " ++ path ++ ":",
       "  " ++ outOfRangeMsg ['v'] ['2'] 1,
       "  " ++ safeAccessMsg ['v'] ['0'] 1] ∧
    check_empty_before_access [exampleLine] = [] := by
  have h1 : check_vector_access [exampleLine] =
      [outOfRangeMsg ['v'] ['2'] 1, safeAccessMsg ['v'] ['0'] 1] := by decide
  have h2 : check_empty_before_access [exampleLine] = [] := by decide
  refine ⟨?_, h2⟩
  simp only [renderReport]
  rw [h1, h2, List.append_nil]
  rfl

/-- C2, counterexample: the claim says whitespace between the identifier
and `[` prevents an IndexedAccess match, but on the line `v [3]` the
scanner does emit an OutOfRangeWarning (the source pattern has `\s*`
before `[`). -/
theorem claim_C2_counterexample :
    check_vector_access ["v [3]"] = [outOfRangeMsg ['v'] ['3'] 1] := by decide

/-- C2, amended: the IndexedAccess pattern allows optional whitespace
between the identifier and `[`; for every valid identifier `name`, the
line `name [3]` produces exactly the OutOfRangeWarning for name and
index 3. -/
theorem claim_C2_amended (name : List Char) (h : isValidIdent name = true) :
    check_vector_access [String.mk (name ++ [' ', '[', '3', ']'])] =
      [outOfRangeMsg name ['3'] 1] := by
  rw [check_vector_access_single, findAccesses_sp_br3 name h, findAts_sp_br3 name h]
  rfl

theorem claim_C2_amended_witness :
    check_vector_access [String.mk (['v'] ++ [' ', '[', '3', ']'])] =
      [outOfRangeMsg ['v'] ['3'] 1] :=
  claim_C2_amended ['v'] (by decide)

/-- C3, counterexample: the claim says whitespace is allowed between `.`
and `at`, but on the line `v. at(3)` the scanner emits nothing at all
(the source pattern `\.at\s*\(` only allows whitespace after `at`). -/
theorem claim_C3_counterexample : check_vector_access ["v. at(3)"] = [] := by decide

/-- C3, amended: the SafeAccess pattern allows optional whitespace
between `at` and `(` but none between `.` and `at`: for every valid
identifier `name`, the line `name. at(3)` yields no issue while the line
`name.at (3)` yields exactly the SafeAccessInfo for name and index 3. -/
theorem claim_C3_amended (name : List Char) (h : isValidIdent name = true) :
    check_vector_access [String.mk (name ++ ['.', ' ', 'a', 't', '(', '3', ')'])] = [] ∧
    check_vector_access [String.mk (name ++ ['.', 'a', 't', ' ', '(', '3', ')'])] =
      [safeAccessMsg name ['3'] 1] := by
  constructor
  · rw [check_vector_access_single, findAccesses_dotSpAt name h, findAts_dotSpAt name h]
    rfl
  · rw [check_vector_access_single, findAccesses_atSp name h, findAts_atSp name h]
    rfl

theorem claim_C3_amended_witness :
    check_vector_access [String.mk (['v'] ++ ['.', ' ', 'a', 't', '(', '3', ')'])] = [] ∧
    check_vector_access [String.mk (['v'] ++ ['.', 'a', 't', ' ', '(', '3', ')'])] =
      [safeAccessMsg ['v'] ['3'] 1] :=
  claim_C3_amended ['v'] (by decide)

/-- C4: `check_empty_before_access` warns for the pair (name, n) exactly
when some IndexedAccess or SafeAccess match with container `name` occurs
on line `n` and no line of the file matches the dynamic
`name.empty()` suppression regex; and because the pairs are collapsed
into a set, the warned pair list is duplicate-free, so at most one
warning is emitted per distinct pair. -/
theorem claim_C4_missing_empty_iff (file_lines : List String) (name : List Char) (n : Nat) :
    ((name, n) ∈ missingEmptyRecords file_lines ↔
      ((∃ i l, file_lines[i]? = some l ∧ name ∈ lineAccessNames l.data ∧ n = 1 + i) ∧
        ¬ ∃ l ∈ file_lines, searchDynEmpty name l.data = true)) ∧
    (missingEmptyRecords file_lines).Nodup := by
  constructor
  · rw [mem_missingEmptyRecords]
    constructor
    · rintro ⟨hv, hs⟩
      refine ⟨?_, hs⟩
      have hm := (mem_collectAccessedFrom file_lines 1 [] (name, n)).mp hv
      simpa using hm
    · rintro ⟨he, hs⟩
      refine ⟨?_, hs⟩
      exact (mem_collectAccessedFrom file_lines 1 [] (name, n)).mpr (Or.inr he)
  · exact (nodup_vectors_accessed file_lines).filter _

/-- C5: a literal decimal index is flagged exactly once with the exact
message format: for any valid identifier `name`, the single line `name[3]`
yields exactly one OutOfRangeWarning rendered for name, index 3, line 1,
while `name[i]` and `name[x+1]` yield no issue at all. -/
theorem claim_C5_literal_index_only (name : List Char) (h : isValidIdent name = true) :
    check_vector_access [String.mk (name ++ ['[', '3', ']'])] =
      [outOfRangeMsg name ['3'] 1] ∧
    check_vector_access [String.mk (name ++ ['[', 'i', ']'])] = [] ∧
    check_vector_access [String.mk (name ++ ['[', 'x', '+', '1', ']'])] = [] := by
  refine ⟨?_, ?_, ?_⟩
  · rw [check_vector_access_single, findAccesses_br3 name h, findAts_br3 name h]
    rfl
  · rw [check_vector_access_single, findAccesses_bri name h, findAts_bri name h]
    rfl
  · rw [check_vector_access_single, findAccesses_brx name h, findAts_brx name h]
    rfl

theorem claim_C5_witness :
    check_vector_access [String.mk (['v'] ++ ['[', '3', ']'])] =
      [outOfRangeMsg ['v'] ['3'] 1] ∧
    check_vector_access [String.mk (['v'] ++ ['[', 'i', ']'])] = [] ∧
    check_vector_access [String.mk (['v'] ++ ['[', 'x', '+', '1', ']'])] = [] :=
  claim_C5_literal_index_only ['v'] (by decide)

/-- C6: the full analysis is a pure function of the path and the file's
lines, so two runs on the same unchanged line sequence produce
byte-identical report output, second-pass ordering included. -/
theorem claim_C6_deterministic (path : String) (lines1 lines2 : List String)
    (h : lines1 = lines2) : renderReport path lines1 = renderReport path lines2 := by
  rw [h]

theorem claim_C6_witness :
    renderReport "a.cpp" ["v[1]"] = renderReport "a.cpp" ["v[1]"] :=
  claim_C6_deterministic "a.cpp" ["v[1]"] ["v[1]"] rfl

/-- C7: the analysis proper is total: both scanning passes are total
functions that return an issue list on every input line sequence,
including the empty one and malformed text; no error outcome exists in
their types. -/
theorem claim_C7_total (file_lines : List String) :
    ∃ issues1 issues2, check_vector_access file_lines = issues1 ∧
      check_empty_before_access file_lines = issues2 :=
  ⟨_, _, rfl, rfl⟩

/-- C8: `analyze_cpp_file` propagates a read failure unchanged to the
caller and produces no report lines for that file, while on a successful
read it only prints the rendered report. -/
theorem claim_C8_io_error (path e : String) (file_lines : List String) :
    analyze_cpp_file path (Except.error e) = Except.error e ∧
      analyze_cpp_file path (Except.ok file_lines) = Except.ok (renderReport path file_lines) :=
  ⟨rfl, rfl⟩

/-- C9: for every container name that is a valid identifier, the
dynamically built suppression regex matches a line exactly when the line
carries an occurrence of the EmptyCheck pattern whose captured identifier
is that very name; in particular an empty check on a different identifier
never suppresses it. -/
theorem claim_C9_suppression_exact (name line : List Char) (h : isValidIdent name = true) :
    searchDynEmpty name line = existsEmptyCapture name line :=
  searchDyn_eq_existsCapture h line false

theorem claim_C9_witness :
    isValidIdent ['v'] = true ∧
      searchDynEmpty ['v'] "xv.empty() v2.empty()".data =
        existsEmptyCapture ['v'] "xv.empty() v2.empty()".data :=
  ⟨by decide, claim_C9_suppression_exact ['v'] "xv.empty() v2.empty()".data (by decide)⟩

/-- C10: the two passes agree on what counts as an access: every pair
warned by the second pass names a container and line for which the first
pass emitted at least one issue (an OutOfRangeWarning or a
SafeAccessInfo) with the same name and line number. -/
theorem claim_C10_passes_agree (file_lines : List String) (name : List Char) (n : Nat)
    (h : (name, n) ∈ missingEmptyRecords file_lines) :
    ∃ idx, outOfRangeMsg name idx n ∈ check_vector_access file_lines ∨
      safeAccessMsg name idx n ∈ check_vector_access file_lines := by
  have hv := (mem_missingEmptyRecords.mp h).1
  have hm := (mem_collectAccessedFrom file_lines 1 [] (name, n)).mp hv
  simp only [List.not_mem_nil, false_or] at hm
  obtain ⟨i, l, hget, hname, hn⟩ := hm
  have hname' : name ∈ lineAccessNames l.data := hname
  have hn' : n = 1 + i := hn
  subst hn'
  obtain ⟨idx, hidx⟩ := lineIssue_of_name (1 + i) hname'
  refine ⟨idx, ?_⟩
  rcases hidx with hx | hx
  · exact .inl (mem_check_vector_access_from file_lines 1 i l _ hget hx)
  · exact .inr (mem_check_vector_access_from file_lines 1 i l _ hget hx)

theorem claim_C10_witness :
    ∃ idx, outOfRangeMsg ['v'] idx 1 ∈ check_vector_access ["v[0]"] ∨
      safeAccessMsg ['v'] idx 1 ∈ check_vector_access ["v[0]"] :=
  claim_C10_passes_agree ["v[0]"] ['v'] 1 (by decide)

end CheckVectorSafety
